import Mathlib

/-!
Shallow embedding of the FIR FPGA serial-console firmware
(`src/quartus_proj/uart_nios_qsys/software/fir_uart_nios/hello_world.c`).

The embedding models, directly from the C source:
* the integer parsers `parse_int` and `parse_signed_int`, including the
  32-bit two's-complement wraparound of the accumulation
  `value = value * 10 + digit`;
* the decimal rendering performed by `uart_put_int`;
* the command dispatcher inside `process_console_input` (line handling,
  `$`-separator search, range checks, bridge accesses at byte offset
  `addr * 4`, response strings);
* the single-slot receive latch (`uart_rx_flag` / `uart_rx_char`) written
  by `uart_isr` and `jtag_uart_isr` and drained by the main loop;
* the 512-byte circular transmit buffer with producer `uart_putchar` and
  interrupt-side consumer (the TX branch of `uart_isr`), plus the timed
  variant `uart_putchar_blocking`.

Console output is modelled as the stream of characters handed to the UART
output layer (the concatenation of the `uart_puts` / `uart_put_int` /
`uart_putchar` arguments); the LF-to-CRLF expansion performed inside
`uart_puts` on the wire is orthogonal to the properties proved here.
Bridge accesses are modelled as an explicit event trace so that theorems
can speak about which registers are read or written.
-/

namespace FirConsole

/-- Wrap an integer into the two's-complement range of a 32-bit signed C
`int`, modelling the wraparound of the accumulator in `parse_int` and
`parse_signed_int`. -/
def wrap32 (x : Int) : Int := (x + 2147483648) % 4294967296 - 2147483648

/-- Reinterpret a signed value as the 32-bit unsigned word stored through the
bridge: models the C cast `(uint32_t)value_signed` in the Set path. -/
def uint32OfInt (v : Int) : Nat := (v % 4294967296).toNat

/-- Sign-extend the low 16 bits of a 32-bit word, modelling the C cast
`(int)(int16_t)read_value` used on the Read display path. -/
def sext16 (w : Nat) : Int :=
  if w % 65536 < 32768 then (w % 65536 : Int) else (w % 65536 : Int) - 65536

/-- ASCII decimal-digit test, modelling `isdigit` on the console characters. -/
def is_digit (c : Char) : Bool := decide (48 ≤ c.toNat ∧ c.toNat ≤ 57)

/-- Skip leading spaces and tabs, as the loops
`while (str[i] == ' ' || str[i] == '\t') i++;` in both parsers do. -/
def skipWs : List Char → List Char
  | [] => []
  | c :: cs => if c = ' ' ∨ c = '\t' then skipWs cs else c :: cs

/-- The digit-accumulation loop shared by `parse_int` and `parse_signed_int`:
consume decimal digits, accumulating `value = value * 10 + (c - '0')` in a
32-bit signed register (overflow wraps), stopping at the first non-digit. -/
def scanDigits : List Char → Int → Int
  | [], v => v
  | c :: cs, v =>
    if is_digit c then scanDigits cs (wrap32 (v * 10 + ((c.toNat : Int) - 48))) else v

/-- Models `parse_int`: skip whitespace, require at least one digit, return the
accumulated (possibly wrapped) value; trailing non-digits are ignored. -/
def parse_int (s : List Char) : Option Int :=
  match skipWs s with
  | [] => none
  | c :: cs => if is_digit c then some (scanDigits (c :: cs) 0) else none

/-- The digit and range-check phase of `parse_signed_int`, after the sign has
been consumed: at least one digit, 32-bit accumulation, negation (also
wrapped), then the `value >= -32768 && value <= 32767` check. -/
def parse_signed_int_digits (s : List Char) (neg : Bool) : Option Int :=
  match s with
  | [] => none
  | c :: cs =>
    if is_digit c then
      let v0 := scanDigits (c :: cs) 0
      let v := if neg then wrap32 (-v0) else v0
      if -32768 ≤ v ∧ v ≤ 32767 then some v else none
    else none

/-- Models `parse_signed_int`: skip whitespace, optional `-` or `+` sign
(`if (str[i] == '-') ... else if (str[i] == '+') ...`), then digits and the
signed-16-bit range check. -/
def parse_signed_int (s : List Char) : Option Int :=
  match skipWs s with
  | [] => none
  | c :: cs =>
    if c = '-' then parse_signed_int_digits cs true
    else if c = '+' then parse_signed_int_digits cs false
    else parse_signed_int_digits (c :: cs) false

/-- The decimal digits of `n`, most significant first, exactly as the digit
loop of `uart_put_int` emits them (a lone `'0'` for zero). -/
def natDigits (n : Nat) : List Char :=
  if _h : n < 10 then [Char.ofNat (48 + n)]
  else natDigits (n / 10) ++ [Char.ofNat (48 + n % 10)]
termination_by n
decreasing_by exact Nat.div_lt_self (by omega) (by omega)

/-- Models `uart_put_int`: a minus sign for negatives, then decimal digits. -/
def int_repr (n : Int) : List Char :=
  if n < 0 then '-' :: natDigits (-n).toNat else natDigits n.toNat

/-- Response emitted by the Set path on success. -/
def set_ok_msg (addr v : Int) : List Char :=
  "Set reg[".data ++ int_repr addr ++ "] = ".data ++ int_repr v ++ "\n".data

/-- Response emitted by the Read path on success. -/
def read_ok_msg (addr v : Int) : List Char :=
  "Read reg[".data ++ int_repr addr ++ "] = ".data ++ int_repr v ++ "\n".data

/-- Response emitted by the SetInterval path on success. -/
def timer_ok_msg (v : Int) : List Char :=
  "Timer interval set to: ".data ++ int_repr v ++ " ms\n".data

/-- Error text for a value that fails `parse_signed_int`. -/
def invalid_value_msg : List Char :=
  "Invalid value (must be signed 16-bit: -32768 to 32767).\n".data

/-- Error text for an address outside `[0, 64]`. -/
def addr_range_msg : List Char := "Address out of range (0-64).\n".data

/-- Error text for an address that fails `parse_int`. -/
def invalid_addr_msg : List Char := "Invalid address.\n".data

/-- Error text for a Set command with no `$` separator. -/
def invalid_format_msg : List Char := "Invalid format. Use S<addr>$<value>\n".data

/-- Error text for a timer interval that fails `parse_int`. -/
def invalid_int_msg : List Char := "Invalid integer value.\n".data

/-- Error text for a timer interval outside `[100, 5000]`. -/
def value_range_msg : List Char := "Value out of range (100-5000).\n".data

/-- Error text for an unrecognized leading command letter. -/
def unknown_msg : List Char :=
  "Unknown command. Use S<addr>$<value>, R<addr>, or T<interval>\n".data

/-- One access to the memory-mapped bridge, recorded as an event: a 32-bit
write or read at a byte offset (the code uses `IOWR_32DIRECT` /
`IORD_32DIRECT` at offset `addr * 4`). -/
inductive BridgeEvent where
  | write (off : Nat) (val : Nat)
  | read (off : Nat)
deriving DecidableEq

/-- Apply one bridge event to the bridge contents (byte offset to stored
32-bit word); reads change nothing. -/
def applyEvent (bridge : Nat → Nat) : BridgeEvent → (Nat → Nat)
  | BridgeEvent.write off val => fun o => if o = off then val else bridge o
  | BridgeEvent.read _ => bridge

/-- Apply a trace of bridge events in order. -/
def applyEvents (bridge : Nat → Nat) : List BridgeEvent → (Nat → Nat)
  | [] => bridge
  | e :: es => applyEvents (applyEvent bridge e) es

/-- The `$`-separator search of the Set branch
(`for (i = 1; i < buffer_idx; i++) if (cmd_buffer[i] == '$') ...`): split the
text after the command letter at the first `$`, if any. -/
def splitAtDollar : List Char → Option (List Char × List Char)
  | [] => none
  | c :: cs =>
    if c = '$' then some ([], cs)
    else
      match splitAtDollar cs with
      | some (a, b) => some (c :: a, b)
      | none => none

/-- The command dispatch performed by `process_console_input` once a line
terminator arrives, on the accumulated buffer: returns the response text (the
concatenated `uart_puts` / `uart_put_int` arguments after the echoed
newline), the trace of bridge accesses, and the new timer interval.
An empty buffer is skipped entirely (`if (buffer_idx > 0)`). -/
def dispatch_line (buf : List Char) (bridge : Nat → Nat) (delay : Nat) :
    List Char × List BridgeEvent × Nat :=
  match buf with
  | [] => ([], [], delay)
  | c0 :: rest =>
    if c0 = 'S' ∨ c0 = 's' then
      match splitAtDollar rest with
      | none => (invalid_format_msg, [], delay)
      | some (addrStr, valStr) =>
        match parse_int addrStr with
        | none => (invalid_addr_msg, [], delay)
        | some addr =>
          if 0 ≤ addr ∧ addr ≤ 64 then
            match parse_signed_int valStr with
            | some v =>
              (set_ok_msg addr v, [BridgeEvent.write (addr * 4).toNat (uint32OfInt v)], delay)
            | none => (invalid_value_msg, [], delay)
          else (addr_range_msg, [], delay)
    else if c0 = 'R' ∨ c0 = 'r' then
      match parse_int rest with
      | none => (invalid_addr_msg, [], delay)
      | some addr =>
        if 0 ≤ addr ∧ addr ≤ 64 then
          (read_ok_msg addr (sext16 (bridge (addr * 4).toNat)),
            [BridgeEvent.read (addr * 4).toNat], delay)
        else (addr_range_msg, [], delay)
    else if c0 = 'T' ∨ c0 = 't' then
      match parse_int rest with
      | none => (invalid_int_msg, [], delay)
      | some v =>
        if v ≤ 5000 ∧ 100 ≤ v then (timer_ok_msg v, [], v.toNat)
        else (value_range_msg, [], delay)
    else (unknown_msg, [], delay)

/-- Handling of one received character by `process_console_input`: a `'\r'` or
`'\n'` echoes a newline, dispatches the buffered line and resets the buffer;
any other character is appended and echoed while `buffer_idx < 31`, and is
silently discarded otherwise. Returns the new buffer, the emitted output, the
bridge events, and the new timer interval. -/
def console_step (buf : List Char) (bridge : Nat → Nat) (delay : Nat) (c : Char) :
    List Char × List Char × List BridgeEvent × Nat :=
  if c = '\r' ∨ c = '\n' then
    let r := dispatch_line buf bridge delay
    ([], "\n".data ++ r.1, r.2.1, r.2.2)
  else if buf.length < 31 then
    (buf ++ [c], [c], [], delay)
  else
    (buf, [], [], delay)

/-- Feed a sequence of received characters through `console_step`, threading
the line buffer, the bridge contents (writes take effect) and the timer
interval, and accumulating output and bridge events. -/
def console_run (input : List Char) (buf : List Char) (bridge : Nat → Nat) (delay : Nat) :
    List Char × List Char × List BridgeEvent × Nat :=
  match input with
  | [] => (buf, [], [], delay)
  | c :: cs =>
    let s := console_step buf bridge delay c
    let r := console_run cs s.1 (applyEvents bridge s.2.2.1) s.2.2.2
    (r.1, s.2.1 ++ r.2.1, s.2.2.1 ++ r.2.2.1, r.2.2.2)

/-- The transmit buffer capacity `#define TX_BUFFER_SIZE 512`. -/
def TX_BUFFER_SIZE : Nat := 512

/-- State of the circular transmit buffer: the byte array `tx_buffer`
(modelled as a total function, only indices below 512 are ever used), the
producer index `tx_head` and the consumer index `tx_tail`. -/
structure TxRing where
  buf : Nat → Nat
  head : Nat
  tail : Nat

/-- Well-formedness of the ring indices: both are reduced modulo
`TX_BUFFER_SIZE`, as the code maintains by construction. -/
def TxRing.WF (r : TxRing) : Prop :=
  r.head < TX_BUFFER_SIZE ∧ r.tail < TX_BUFFER_SIZE

/-- Models `uart_putchar`: compute `next_head = (tx_head + 1) % 512`; if that
equals `tx_tail` the ring is full and the byte is rejected (return 0, state
unchanged); otherwise store at `tx_head`, advance, and return 1. -/
def uart_putchar (c : Nat) (r : TxRing) : TxRing × Bool :=
  let next_head := (r.head + 1) % TX_BUFFER_SIZE
  if next_head = r.tail then (r, false)
  else
    ({ buf := fun i => if i = r.head then c else r.buf i,
       head := next_head, tail := r.tail }, true)

/-- Models the transmit branch of `uart_isr` when the transmitter is ready:
if `tx_tail != tx_head`, emit `tx_buffer[tx_tail]` and advance `tx_tail`;
otherwise nothing to drain. -/
def uart_isr_drain (r : TxRing) : Option (Nat × TxRing) :=
  if r.tail ≠ r.head then
    some (r.buf r.tail, { r with tail := (r.tail + 1) % TX_BUFFER_SIZE })
  else none

/-- Number of pending bytes in the ring. -/
def ringLen (r : TxRing) : Nat := (r.head + TX_BUFFER_SIZE - r.tail) % TX_BUFFER_SIZE

/-- The pending bytes of the ring, oldest first. -/
def ringContents (r : TxRing) : List Nat :=
  (List.range (ringLen r)).map fun i => r.buf ((r.tail + i) % TX_BUFFER_SIZE)

/-- Enqueue a list of bytes left to right through `uart_putchar`, collecting
each call's success flag. -/
def enqueueList : List Nat → TxRing → TxRing × List Bool
  | [], r => (r, [])
  | c :: cs, r =>
    let p := uart_putchar c r
    let q := enqueueList cs p.1
    (q.1, p.2 :: q.2)

/-- Drain up to `k` bytes through `uart_isr_drain`, collecting the emitted
bytes in order. -/
def drainN : Nat → TxRing → List Nat × TxRing
  | 0, r => ([], r)
  | k + 1, r =>
    match uart_isr_drain r with
    | none => ([], r)
    | some (c, r1) =>
      let q := drainN k r1
      (c :: q.1, q.2)

/-- The 32-bit unsigned subtraction `timer_tick_count - start_time` performed
by `uart_putchar_blocking` on `uint32_t` operands. -/
def sub32 (a b : Nat) : Nat :=
  (a % 4294967296 + (4294967296 - b % 4294967296)) % 4294967296

/-- Models `uart_putchar_blocking`: repeatedly attempt `uart_putchar`; on
failure compare the currently observed tick count against the start value and
give up once `timeout_ms` ticks have elapsed. The environment is the list of
(ring state, tick value) pairs observed at successive loop iterations; `none`
means the observation list ran out before the loop returned. -/
def uart_putchar_blocking (c : Nat) (timeout_ms : Nat) (start : Nat) :
    List (TxRing × Nat) → Option (Bool × TxRing)
  | [] => none
  | (r, t) :: rest =>
    if (uart_putchar c r).2 then some (true, (uart_putchar c r).1)
    else if timeout_ms ≤ sub32 t start then some (false, r)
    else uart_putchar_blocking c timeout_ms start rest

/-- The single-slot receive mailbox `uart_rx_flag` / `uart_rx_char`, shared by
the RS232 and JTAG receive interrupt paths. -/
structure RxLatch where
  flag : Bool
  chr : Char
deriving DecidableEq

/-- The receive branch of `uart_isr`: if the status word has the RRDY bit
(0x80) set, the byte read from RXDATA overwrites the latch and the flag is
set, regardless of whether the previous character was consumed. -/
def uart_isr_rx (status rxdata : Nat) (l : RxLatch) : RxLatch :=
  if status &&& 128 ≠ 0 then { flag := true, chr := Char.ofNat (rxdata % 256) } else l

/-- Models `jtag_uart_isr`: read the JTAG data register; if the valid bit
(bit 15) is set, the low byte overwrites the same latch used by the RS232
path and the flag is set. -/
def jtag_uart_isr (data : Nat) (l : RxLatch) : RxLatch :=
  if data &&& 32768 ≠ 0 then { flag := true, chr := Char.ofNat (data % 256) } else l

/-- One main-loop call of `process_console_input`: if the latch flag is set,
copy the character, clear the flag, and run the line-assembler step; otherwise
do nothing. Returns the latch after the call together with the
`console_step` result (new buffer, output, bridge events, new interval). -/
def process_console_input (l : RxLatch) (buf : List Char) (bridge : Nat → Nat)
    (delay : Nat) : RxLatch × (List Char × List Char × List BridgeEvent × Nat) :=
  if l.flag then ({ l with flag := false }, console_step buf bridge delay l.chr)
  else (l, (buf, [], [], delay))

/-! ### Arithmetic and parsing lemmas -/

theorem wrap32_id (x : Int) (h1 : -2147483648 ≤ x) (h2 : x < 2147483648) :
    wrap32 x = x := by
  unfold wrap32; omega

theorem natDigits_digit (n : Nat) : ∀ c ∈ natDigits n, is_digit c = true := by
  induction n using natDigits.induct with
  | case1 n h =>
    intro c hc
    rw [natDigits, dif_pos h] at hc
    simp only [List.mem_singleton] at hc
    subst hc
    simp only [is_digit, decide_eq_true_eq]
    interval_cases n <;> decide
  | case2 n h ih =>
    intro c hc
    rw [natDigits, dif_neg h] at hc
    simp only [List.mem_append, List.mem_singleton] at hc
    rcases hc with hc | hc
    · exact ih c hc
    · subst hc
      simp only [is_digit, decide_eq_true_eq]
      have hm : n % 10 < 10 := Nat.mod_lt _ (by omega)
      interval_cases hn : (n % 10) <;> decide

theorem natDigits_ne_nil (n : Nat) : natDigits n ≠ [] := by
  rw [natDigits]
  split
  · simp
  · simp

theorem natDigits_cons (n : Nat) :
    ∃ c cs, natDigits n = c :: cs ∧ is_digit c = true := by
  rcases h : natDigits n with _ | ⟨c, cs⟩
  · exact absurd h (natDigits_ne_nil n)
  · exact ⟨c, cs, rfl, natDigits_digit n c (by rw [h]; exact List.mem_cons_self c cs)⟩

theorem is_digit_toNat {c : Char} (h : is_digit c = true) :
    48 ≤ c.toNat ∧ c.toNat ≤ 57 := by
  simpa [is_digit] using h

theorem is_digit_ne {c : Char} (h : is_digit c = true) :
    c ≠ ' ' ∧ c ≠ '\t' ∧ c ≠ '$' ∧ c ≠ '-' ∧ c ≠ '+' ∧ c ≠ '\n' ∧ c ≠ '\r' := by
  have hb := is_digit_toNat h
  refine ⟨?_, ?_, ?_, ?_, ?_, ?_, ?_⟩ <;> · rintro rfl; revert hb; decide

theorem skipWs_of_head (c : Char) (cs : List Char) (h1 : c ≠ ' ') (h2 : c ≠ '\t') :
    skipWs (c :: cs) = c :: cs := by
  rw [skipWs]
  simp [h1, h2]

theorem scanDigits_append (ds rest : List Char) (v : Int)
    (h : ∀ c ∈ ds, is_digit c = true) :
    scanDigits (ds ++ rest) v = scanDigits rest (scanDigits ds v) := by
  induction ds generalizing v with
  | nil => simp [scanDigits]
  | cons c cs ih =>
    have hc : is_digit c = true := h c (List.mem_cons_self c cs)
    rw [List.cons_append, scanDigits, if_pos hc, scanDigits, if_pos hc]
    exact ih _ fun d hd => h d (List.mem_cons_of_mem c hd)

theorem scanDigits_stop (c : Char) (rest : List Char) (v : Int)
    (h : is_digit c = false) : scanDigits (c :: rest) v = v := by
  rw [scanDigits, if_neg (by simp [h])]

theorem scanDigits_head_stop (rest : List Char) (v : Int)
    (h : ∀ c, rest.head? = some c → is_digit c = false) :
    scanDigits rest v = v := by
  cases rest with
  | nil => rfl
  | cons c cs => exact scanDigits_stop c cs v (h c rfl)

theorem scanDigits_natDigits (n : Nat) : ∀ v : Int, 0 ≤ v →
    v * 10 ^ (natDigits n).length + n < 2147483648 →
    scanDigits (natDigits n) v = v * 10 ^ (natDigits n).length + n := by
  induction n using natDigits.induct with
  | case1 n h =>
    intro v hv hbound
    have hd1 : natDigits n = [Char.ofNat (48 + n)] := by rw [natDigits, dif_pos h]
    have htn : (Char.ofNat (48 + n)).toNat = 48 + n := by
      interval_cases n <;> decide
    have hdig : is_digit (Char.ofNat (48 + n)) = true := by
      simp only [is_digit, htn, decide_eq_true_eq]
      omega
    rw [hd1, List.length_singleton, pow_one] at hbound ⊢
    rw [scanDigits, if_pos hdig, scanDigits, htn]
    have harg : ((48 + n : Nat) : Int) - 48 = ((n : Nat) : Int) := by push_cast; ring
    rw [harg, wrap32_id]
    · have hn0 : (0 : Int) ≤ (n : Int) := Int.natCast_nonneg n
      linarith
    · exact hbound
  | case2 n h ih =>
    intro v hv hbound
    have hd : natDigits n = natDigits (n / 10) ++ [Char.ofNat (48 + n % 10)] := by
      rw [natDigits, dif_neg h]
    have hlen : (natDigits n).length = (natDigits (n / 10)).length + 1 := by
      rw [hd]; simp
    set k := (natDigits (n / 10)).length with hk
    rw [hlen] at hbound ⊢
    have hub : v * 10 ^ k + (n / 10 : Nat) < 2147483648 := by
      have h10 : (10 : Int) ^ (k + 1) = 10 ^ k * 10 := by ring
      rw [h10] at hbound
      have hdiv : ((n / 10 : Nat) : Int) * 10 ≤ (n : Int) := by
        have := Nat.div_mul_le_self n 10
        exact_mod_cast this
      nlinarith [pow_pos (show (0 : Int) < 10 by norm_num) k]
    have hscan1 : scanDigits (natDigits (n / 10)) v = v * 10 ^ k + (n / 10 : Nat) :=
      ih v hv hub
    have htn : (Char.ofNat (48 + n % 10)).toNat = 48 + n % 10 := by
      have : n % 10 < 10 := Nat.mod_lt _ (by omega)
      interval_cases hm : (n % 10) <;> decide
    have hdig : is_digit (Char.ofNat (48 + n % 10)) = true := by
      simp only [is_digit, htn, decide_eq_true_eq]
      omega
    have hval : (v * 10 ^ k + ((n / 10 : Nat) : Int)) * 10 + ((n % 10 : Nat) : Int)
        = v * 10 ^ (k + 1) + (n : Int) := by
      have hsplit : ((n : Nat) : Int) = ((n / 10 : Nat) : Int) * 10 + ((n % 10 : Nat) : Int) := by
        have := Nat.div_add_mod n 10
        push_cast
        omega
      rw [hsplit]
      ring
    have harg : ((48 + n % 10 : Nat) : Int) - 48 = ((n % 10 : Nat) : Int) := by
      push_cast; ring
    rw [hd, scanDigits_append _ _ _ (fun c hc => natDigits_digit (n / 10) c hc), hscan1,
      scanDigits, if_pos hdig, scanDigits, htn, harg, hval, wrap32_id]
    · have hn0 : (0 : Int) ≤ (n : Int) := Int.natCast_nonneg n
      have hp : (0 : Int) < 10 ^ (k + 1) := pow_pos (by norm_num) _
      nlinarith
    · exact hbound

theorem parse_int_natDigits (n : Nat) (rest : List Char)
    (hn : (n : Int) < 2147483648)
    (hrest : ∀ c, rest.head? = some c → is_digit c = false) :
    parse_int (natDigits n ++ rest) = some (n : Int) := by
  obtain ⟨c, cs, hd, hdig⟩ := natDigits_cons n
  have hne := is_digit_ne hdig
  rw [hd, List.cons_append, parse_int, skipWs_of_head c _ hne.1 hne.2.1]
  show (if is_digit c = true then some (scanDigits (c :: (cs ++ rest)) 0) else none)
      = some (n : Int)
  rw [if_pos hdig, ← List.cons_append, ← hd,
    scanDigits_append _ _ _ (natDigits_digit n), scanDigits_head_stop rest _ hrest,
    scanDigits_natDigits n 0 le_rfl (by simpa using hn)]
  simp

theorem scanDigits_natDigits_zero (n : Nat) (hn : (n : Int) < 2147483648) :
    scanDigits (natDigits n) 0 = (n : Int) := by
  have := scanDigits_natDigits n 0 le_rfl (by simpa using hn)
  simpa using this

theorem parse_signed_int_digits_natDigits (n : Nat) (hn : (n : Int) < 2147483648) :
    parse_signed_int_digits (natDigits n) false
      = if -32768 ≤ (n : Int) ∧ (n : Int) ≤ 32767 then some (n : Int) else none := by
  obtain ⟨c, cs, hd, hdig⟩ := natDigits_cons n
  rw [hd, parse_signed_int_digits, if_pos hdig, ← hd]
  simp only [scanDigits_natDigits_zero n hn, if_neg (Bool.false_ne_true)]

theorem parse_signed_int_int_repr (v : Int) (h1 : -32768 ≤ v) (h2 : v ≤ 32767) :
    parse_signed_int (int_repr v) = some v := by
  by_cases hneg : v < 0
  · have hd0 : int_repr v = '-' :: natDigits (-v).toNat := by rw [int_repr, if_pos hneg]
    obtain ⟨c, cs, hd, hdig⟩ := natDigits_cons (-v).toNat
    have hne := is_digit_ne hdig
    have hnv : ((-v).toNat : Int) = -v := Int.toNat_of_nonneg (by omega)
    have hb : ((-v).toNat : Int) < 2147483648 := by omega
    rw [hd0, parse_signed_int, skipWs_of_head '-' _ (by decide) (by decide)]
    show (if ('-' : Char) = '-' then parse_signed_int_digits (natDigits (-v).toNat) true
          else if ('-' : Char) = '+' then parse_signed_int_digits (natDigits (-v).toNat) false
          else parse_signed_int_digits ('-' :: natDigits (-v).toNat) false) = some v
    rw [if_pos rfl, hd, parse_signed_int_digits, if_pos hdig, ← hd]
    simp only [scanDigits_natDigits_zero _ hb, hnv, neg_neg,
      wrap32_id v (by omega) (by omega)]
    simp [h1, h2]
  · have hd0 : int_repr v = natDigits v.toNat := by rw [int_repr, if_neg hneg]
    obtain ⟨c, cs, hd, hdig⟩ := natDigits_cons v.toNat
    have hne := is_digit_ne hdig
    have hnv : (v.toNat : Int) = v := Int.toNat_of_nonneg (by omega)
    have hb : (v.toNat : Int) < 2147483648 := by omega
    rw [hd0, hd, parse_signed_int, skipWs_of_head c _ hne.1 hne.2.1]
    show (if c = '-' then parse_signed_int_digits cs true
          else if c = '+' then parse_signed_int_digits cs false
          else parse_signed_int_digits (c :: cs) false) = some v
    rw [if_neg hne.2.2.2.1, if_neg hne.2.2.2.2.1, ← hd,
      parse_signed_int_digits_natDigits _ hb, hnv, if_pos ⟨h1, h2⟩]

theorem splitAtDollar_append (l rest : List Char) (h : '$' ∉ l) :
    splitAtDollar (l ++ '$' :: rest) = some (l, rest) := by
  induction l with
  | nil => simp [splitAtDollar]
  | cons c cs ih =>
    have hc : c ≠ '$' := fun hc => h (hc ▸ List.mem_cons_self c cs)
    rw [List.cons_append, splitAtDollar, if_neg hc,
      ih fun hm => h (List.mem_cons_of_mem c hm)]

theorem natDigits_not_dollar (n : Nat) : '$' ∉ natDigits n := fun hm =>
  (is_digit_ne (natDigits_digit n '$' hm)).2.2.1 rfl

/-! ### Dispatch reduction lemmas -/

theorem dispatch_line_S (addrStr valStr : List Char) (bridge : Nat → Nat) (delay : Nat)
    (hnd : '$' ∉ addrStr) :
    dispatch_line ('S' :: (addrStr ++ '$' :: valStr)) bridge delay =
      match parse_int addrStr with
      | none => (invalid_addr_msg, [], delay)
      | some addr =>
        if 0 ≤ addr ∧ addr ≤ 64 then
          match parse_signed_int valStr with
          | some v =>
            (set_ok_msg addr v, [BridgeEvent.write (addr * 4).toNat (uint32OfInt v)], delay)
          | none => (invalid_value_msg, [], delay)
        else (addr_range_msg, [], delay) := by
  rw [dispatch_line]
  rw [if_pos (Or.inl rfl), splitAtDollar_append _ _ hnd]

theorem dispatch_line_R (rest : List Char) (bridge : Nat → Nat) (delay : Nat) :
    dispatch_line ('R' :: rest) bridge delay =
      match parse_int rest with
      | none => (invalid_addr_msg, [], delay)
      | some addr =>
        if 0 ≤ addr ∧ addr ≤ 64 then
          (read_ok_msg addr (sext16 (bridge (addr * 4).toNat)),
            [BridgeEvent.read (addr * 4).toNat], delay)
        else (addr_range_msg, [], delay) := by
  rw [dispatch_line, if_neg (by decide), if_pos (Or.inl rfl)]

theorem dispatch_line_T (rest : List Char) (bridge : Nat → Nat) (delay : Nat) :
    dispatch_line ('T' :: rest) bridge delay =
      match parse_int rest with
      | none => (invalid_int_msg, [], delay)
      | some v =>
        if v ≤ 5000 ∧ 100 ≤ v then (timer_ok_msg v, [], v.toNat)
        else (value_range_msg, [], delay) := by
  rw [dispatch_line, if_neg (by decide), if_neg (by decide), if_pos (Or.inl rfl)]

theorem sext16_uint32OfInt (v : Int) (h1 : -32768 ≤ v) (h2 : v ≤ 32767) :
    sext16 (uint32OfInt v) = v := by
  unfold sext16 uint32OfInt
  split <;> omega

theorem dispatch_line_S_ok (addrStr valStr : List Char) (bridge : Nat → Nat) (delay : Nat)
    (hnd : '$' ∉ addrStr) (a v : Int) (hpa : parse_int addrStr = some a)
    (h0 : 0 ≤ a) (h64 : a ≤ 64) (hpv : parse_signed_int valStr = some v) :
    dispatch_line ('S' :: (addrStr ++ '$' :: valStr)) bridge delay
      = (set_ok_msg a v, [BridgeEvent.write (a * 4).toNat (uint32OfInt v)], delay) := by
  rw [dispatch_line_S _ _ _ _ hnd]
  simp only [hpa]
  rw [if_pos ⟨h0, h64⟩]
  simp only [hpv]

theorem dispatch_line_S_addr_range (addrStr valStr : List Char) (bridge : Nat → Nat)
    (delay : Nat) (hnd : '$' ∉ addrStr) (a : Int) (hpa : parse_int addrStr = some a)
    (hbad : ¬(0 ≤ a ∧ a ≤ 64)) :
    dispatch_line ('S' :: (addrStr ++ '$' :: valStr)) bridge delay
      = (addr_range_msg, [], delay) := by
  rw [dispatch_line_S _ _ _ _ hnd]
  simp only [hpa]
  rw [if_neg hbad]

theorem dispatch_line_S_bad_value (addrStr valStr : List Char) (bridge : Nat → Nat)
    (delay : Nat) (hnd : '$' ∉ addrStr) (a : Int) (hpa : parse_int addrStr = some a)
    (h0 : 0 ≤ a) (h64 : a ≤ 64) (hpv : parse_signed_int valStr = none) :
    dispatch_line ('S' :: (addrStr ++ '$' :: valStr)) bridge delay
      = (invalid_value_msg, [], delay) := by
  rw [dispatch_line_S _ _ _ _ hnd]
  simp only [hpa]
  rw [if_pos ⟨h0, h64⟩]
  simp only [hpv]

theorem dispatch_line_R_ok (rest : List Char) (bridge : Nat → Nat) (delay : Nat)
    (a : Int) (hpa : parse_int rest = some a) (h0 : 0 ≤ a) (h64 : a ≤ 64) :
    dispatch_line ('R' :: rest) bridge delay
      = (read_ok_msg a (sext16 (bridge (a * 4).toNat)),
          [BridgeEvent.read (a * 4).toNat], delay) := by
  rw [dispatch_line_R]
  simp only [hpa]
  rw [if_pos ⟨h0, h64⟩]

theorem dispatch_line_R_addr_range (rest : List Char) (bridge : Nat → Nat) (delay : Nat)
    (a : Int) (hpa : parse_int rest = some a) (hbad : ¬(0 ≤ a ∧ a ≤ 64)) :
    dispatch_line ('R' :: rest) bridge delay = (addr_range_msg, [], delay) := by
  rw [dispatch_line_R]
  simp only [hpa]
  rw [if_neg hbad]

theorem dispatch_line_T_ok (rest : List Char) (bridge : Nat → Nat) (delay : Nat)
    (v : Int) (hpv : parse_int rest = some v) (h1 : v ≤ 5000) (h2 : 100 ≤ v) :
    dispatch_line ('T' :: rest) bridge delay = (timer_ok_msg v, [], v.toNat) := by
  rw [dispatch_line_T]
  simp only [hpv]
  rw [if_pos ⟨h1, h2⟩]

theorem dispatch_line_T_range (rest : List Char) (bridge : Nat → Nat) (delay : Nat)
    (v : Int) (hpv : parse_int rest = some v) (hbad : ¬(v ≤ 5000 ∧ 100 ≤ v)) :
    dispatch_line ('T' :: rest) bridge delay = (value_range_msg, [], delay) := by
  rw [dispatch_line_T]
  simp only [hpv]
  rw [if_neg hbad]

/-! ### Claim C1: Set/Read round trip through the bridge -/

/-- C1: for every address `a` in `[0, 64]` and value `v` in `[-32768, 32767]`,
dispatching `S<a>$<v>` writes the sign-extended value to the bridge at byte
offset `a * 4`, and a subsequent `R<a>` reads back from the same offset
`a * 4` and displays exactly `v`: both paths apply the same address scaling. -/
theorem set_read_roundtrip (a : Nat) (v : Int) (bridge : Nat → Nat) (delay : Nat)
    (ha : a ≤ 64) (hv1 : -32768 ≤ v) (hv2 : v ≤ 32767) :
    dispatch_line ('S' :: (natDigits a ++ '$' :: int_repr v)) bridge delay
      = (set_ok_msg (a : Int) v, [BridgeEvent.write (a * 4) (uint32OfInt v)], delay)
    ∧ dispatch_line ('R' :: natDigits a)
        (applyEvents bridge [BridgeEvent.write (a * 4) (uint32OfInt v)]) delay
      = (read_ok_msg (a : Int) v, [BridgeEvent.read (a * 4)], delay) := by
  have hb : (a : Int) < 2147483648 := by omega
  have hpa0 : parse_int (natDigits a ++ []) = some (a : Int) :=
    parse_int_natDigits a [] hb (fun c hc => by simp at hc)
  have hpa : parse_int (natDigits a) = some (a : Int) := by
    rwa [List.append_nil] at hpa0
  have ht : ((a : Int) * 4).toNat = a * 4 := by omega
  have h0 : (0 : Int) ≤ (a : Int) := Int.natCast_nonneg a
  have h64 : (a : Int) ≤ 64 := by omega
  constructor
  · rw [dispatch_line_S_ok (natDigits a) (int_repr v) bridge delay (natDigits_not_dollar a)
      (a : Int) v hpa h0 h64 (parse_signed_int_int_repr v hv1 hv2), ht]
  · rw [dispatch_line_R_ok (natDigits a)
      (applyEvents bridge [BridgeEvent.write (a * 4) (uint32OfInt v)]) delay
      (a : Int) hpa h0 h64, ht]
    have hread : applyEvents bridge [BridgeEvent.write (a * 4) (uint32OfInt v)] (a * 4)
        = uint32OfInt v := by
      simp [applyEvents, applyEvent]
    rw [hread, sext16_uint32OfInt v hv1 hv2]

/-- Witness for C1 at the concrete input `S10$-500` followed by `R10`. -/
theorem set_read_roundtrip_witness :
    dispatch_line ('S' :: (natDigits 10 ++ '$' :: int_repr (-500))) (fun _ => 0) 1000
      = (set_ok_msg (10 : Int) (-500), [BridgeEvent.write (10 * 4) (uint32OfInt (-500))], 1000)
    ∧ dispatch_line ('R' :: natDigits 10)
        (applyEvents (fun _ => 0) [BridgeEvent.write (10 * 4) (uint32OfInt (-500))]) 1000
      = (read_ok_msg (10 : Int) (-500), [BridgeEvent.read (10 * 4)], 1000) :=
  set_read_roundtrip 10 (-500) (fun _ => 0) 1000 (by norm_num) (by norm_num) (by norm_num)

/-! ### Claim C2: one response line per submitted line -/

theorem int_repr_no_newline (v : Int) : '\n' ∉ int_repr v := by
  unfold int_repr
  split
  · intro hm
    rcases List.mem_cons.mp hm with h | h
    · exact absurd h (by decide)
    · exact absurd (natDigits_digit _ _ h) (by decide)
  · intro hm
    exact absurd (natDigits_digit _ _ hm) (by decide)

theorem count_nl_int_repr (v : Int) : (int_repr v).count '\n' = 0 :=
  List.count_eq_zero.mpr (int_repr_no_newline v)

theorem ends_nl (l1 l2 : List Char) (h : l2.getLast? = some '\n') :
    (l1 ++ l2).getLast? = some '\n' := by
  rw [List.getLast?_append, h]
  rfl

/-- Every possible dispatcher output for a nonempty line is exactly one
newline-terminated line. -/
def OneLine (out : List Char) : Prop :=
  out.count '\n' = 1 ∧ out.getLast? = some '\n'

theorem oneline_set_ok (a v : Int) : OneLine (set_ok_msg a v) := by
  constructor
  · simp [set_ok_msg, List.count_append, count_nl_int_repr]
  · exact ends_nl _ _ (by decide)

theorem oneline_read_ok (a v : Int) : OneLine (read_ok_msg a v) := by
  constructor
  · simp [read_ok_msg, List.count_append, count_nl_int_repr]
  · exact ends_nl _ _ (by decide)

theorem oneline_timer_ok (v : Int) : OneLine (timer_ok_msg v) := by
  constructor
  · simp [timer_ok_msg, List.count_append, count_nl_int_repr]
  · exact ends_nl _ _ (by decide)

theorem oneline_invalid_value : OneLine invalid_value_msg := by constructor <;> decide

theorem oneline_addr_range : OneLine addr_range_msg := by constructor <;> decide

theorem oneline_invalid_addr : OneLine invalid_addr_msg := by constructor <;> decide

theorem oneline_invalid_format : OneLine invalid_format_msg := by constructor <;> decide

theorem oneline_invalid_int : OneLine invalid_int_msg := by constructor <;> decide

theorem oneline_value_range : OneLine value_range_msg := by constructor <;> decide

theorem oneline_unknown : OneLine unknown_msg := by constructor <;> decide

/-- C2 counterexample: dispatching an empty submitted line produces no
response text and no bridge access at all — in particular not the
Unknown-command error line the claim requires. -/
theorem empty_line_no_response :
    dispatch_line [] (fun _ => 0) 1000 = ([], [], 1000)
    ∧ ([] : List Char) ≠ unknown_msg := by
  constructor
  · rfl
  · decide

/-- C2 as amended: every nonempty submitted line produces exactly one
newline-terminated response or error line; an empty line produces none. -/
theorem nonempty_line_one_response (buf : List Char) (bridge : Nat → Nat) (delay : Nat)
    (h : buf ≠ []) :
    (dispatch_line buf bridge delay).1.count '\n' = 1 ∧
    (dispatch_line buf bridge delay).1.getLast? = some '\n' := by
  show OneLine (dispatch_line buf bridge delay).1
  cases buf with
  | nil => exact absurd rfl h
  | cons c0 rest =>
    rw [dispatch_line]
    split
    · split
      · exact oneline_invalid_format
      · split
        · exact oneline_invalid_addr
        · split
          · split
            · exact oneline_set_ok _ _
            · exact oneline_invalid_value
          · exact oneline_addr_range
    · split
      · split
        · exact oneline_invalid_addr
        · split
          · exact oneline_read_ok _ _
          · exact oneline_addr_range
      · split
        · split
          · exact oneline_invalid_int
          · split
            · exact oneline_timer_ok _
            · exact oneline_value_range
        · exact oneline_unknown

/-- Witness for C2's amended theorem at the concrete nonempty line `X`. -/
theorem nonempty_line_one_response_witness :
    (dispatch_line ['X'] (fun _ => 0) 1000).1.count '\n' = 1 ∧
    (dispatch_line ['X'] (fun _ => 0) 1000).1.getLast? = some '\n' :=
  nonempty_line_one_response ['X'] (fun _ => 0) 1000 (by decide)

/-! ### Claims C5, C6, C9: range checking, invalid addresses, trailing junk -/

theorem parse_signed_int_natDigits (v : Nat) (hb : (v : Int) < 2147483648) :
    parse_signed_int (natDigits v)
      = if -32768 ≤ (v : Int) ∧ (v : Int) ≤ 32767 then some (v : Int) else none := by
  obtain ⟨c, cs, hd, hdig⟩ := natDigits_cons v
  have hne := is_digit_ne hdig
  rw [hd, parse_signed_int, skipWs_of_head c _ hne.1 hne.2.1]
  show (if c = '-' then parse_signed_int_digits cs true
        else if c = '+' then parse_signed_int_digits cs false
        else parse_signed_int_digits (c :: cs) false) = _
  rw [if_neg hne.2.2.2.1, if_neg hne.2.2.2.2.1, ← hd,
    parse_signed_int_digits_natDigits _ hb]

theorem parse_signed_int_neg_natDigits (m : Nat) (hb : (m : Int) < 2147483648) :
    parse_signed_int ('-' :: natDigits m)
      = if -32768 ≤ -(m : Int) ∧ -(m : Int) ≤ 32767 then some (-(m : Int)) else none := by
  obtain ⟨c, cs, hd, hdig⟩ := natDigits_cons m
  have hw : wrap32 (-(m : Int)) = -(m : Int) := wrap32_id _ (by omega) (by omega)
  rw [parse_signed_int, skipWs_of_head '-' _ (by decide) (by decide)]
  show (if ('-' : Char) = '-' then parse_signed_int_digits (natDigits m) true
        else if ('-' : Char) = '+' then parse_signed_int_digits (natDigits m) false
        else parse_signed_int_digits ('-' :: natDigits m) false) = _
  rw [if_pos rfl, hd, parse_signed_int_digits, if_pos hdig, ← hd]
  simp only [scanDigits_natDigits_zero m hb, if_pos (Eq.refl true), if_true, hw]

theorem parse_int_natDigits_nil (n : Nat) (hn : (n : Int) < 2147483648) :
    parse_int (natDigits n) = some (n : Int) := by
  have h := parse_int_natDigits n [] hn (fun c hc => by simp at hc)
  rwa [List.append_nil] at h

/-- C5 counterexample: the numeral 4294967396 (= 2^32 + 100) is beyond every
documented checked range, yet `T4294967396` is accepted: the 32-bit
accumulator wraps it silently to the in-range value 100, the success response
is emitted and the timer interval is updated to 100. -/
theorem parse_overflow_wraps_accepted :
    parse_int ("4294967396".data) = some 100
    ∧ dispatch_line ('T' :: "4294967396".data) (fun _ => 0) 1000
        = (timer_ok_msg 100, [], 100) := by
  have hp : parse_int ("4294967396".data) = some 100 := by decide
  refine ⟨hp, ?_⟩
  have := dispatch_line_T_ok ("4294967396".data) (fun _ => 0) 1000 100 hp
    (by norm_num) (by norm_num)
  simpa using this

/-- C5 as amended: a command whose decimal numeral (unsigned or negative)
denotes a value beyond the checked range but small enough not to overflow the
32-bit accumulator (magnitude below 2^31) is rejected with the value/range
error and performs no bridge access — covering the timer interval, the Set
value in both the too-large and too-negative directions, and the address;
numerals with magnitude at or above 2^31 can wrap modulo 2^32 and be
silently accepted. -/
theorem range_reject_no_overflow (bridge : Nat → Nat) (delay : Nat) :
    (∀ n : Nat, (n : Int) < 2147483648 → 5000 < n ∨ n < 100 →
      dispatch_line ('T' :: natDigits n) bridge delay = (value_range_msg, [], delay))
    ∧ (∀ a v : Nat, a ≤ 64 → 32767 < v → (v : Int) < 2147483648 →
      dispatch_line ('S' :: (natDigits a ++ '$' :: natDigits v)) bridge delay
        = (invalid_value_msg, [], delay))
    ∧ (∀ a m : Nat, a ≤ 64 → 32768 < m → (m : Int) < 2147483648 →
      dispatch_line ('S' :: (natDigits a ++ '$' :: '-' :: natDigits m)) bridge delay
        = (invalid_value_msg, [], delay))
    ∧ (∀ a : Nat, 64 < a → (a : Int) < 2147483648 →
      dispatch_line ('R' :: natDigits a) bridge delay = (addr_range_msg, [], delay)) := by
  refine ⟨?_, ?_, ?_, ?_⟩
  · intro n hb hout
    exact dispatch_line_T_range _ _ _ (n : Int) (parse_int_natDigits_nil n hb)
      (by rcases hout with h | h <;> omega)
  · intro a v ha hv hb
    refine dispatch_line_S_bad_value _ _ _ _ (natDigits_not_dollar a) (a : Int)
      (parse_int_natDigits_nil a (by omega)) (Int.natCast_nonneg a) (by omega) ?_
    rw [parse_signed_int_natDigits v hb, if_neg (by omega)]
  · intro a m ha hm hb
    refine dispatch_line_S_bad_value _ _ _ _ (natDigits_not_dollar a) (a : Int)
      (parse_int_natDigits_nil a (by omega)) (Int.natCast_nonneg a) (by omega) ?_
    rw [parse_signed_int_neg_natDigits m hb, if_neg (by omega)]
  · intro a ha hb
    exact dispatch_line_R_addr_range _ _ _ (a : Int) (parse_int_natDigits_nil a hb)
      (by omega)

/-- Witness for C5's amended theorem: `T5001`, `S0$40000`, `S0$-40000` and
`R70` are all rejected with the corresponding range/value error and no
bridge access. -/
theorem range_reject_no_overflow_witness :
    dispatch_line ('T' :: natDigits 5001) (fun _ => 0) 1000
      = (value_range_msg, [], 1000)
    ∧ dispatch_line ('S' :: (natDigits 0 ++ '$' :: natDigits 40000)) (fun _ => 0) 1000
      = (invalid_value_msg, [], 1000)
    ∧ dispatch_line ('S' :: (natDigits 0 ++ '$' :: '-' :: natDigits 40000)) (fun _ => 0) 1000
      = (invalid_value_msg, [], 1000)
    ∧ dispatch_line ('R' :: natDigits 70) (fun _ => 0) 1000
      = (addr_range_msg, [], 1000) := by
  have h := range_reject_no_overflow (fun _ => 0) 1000
  exact ⟨h.1 5001 (by norm_num) (by norm_num),
    h.2.1 0 40000 (by norm_num) (by norm_num) (by norm_num),
    h.2.2.1 0 40000 (by norm_num) (by norm_num) (by norm_num),
    h.2.2.2 70 (by norm_num) (by norm_num)⟩

/-- C6: a Set or Read command whose parsed address lies outside `[0, 64]`
produces exactly the address-range error text and an empty bridge-event
trace — the bridge is neither written nor read. -/
theorem addr_out_of_range_no_bridge_access (bridge : Nat → Nat) (delay : Nat) :
    (∀ addrStr valStr (a : Int), '$' ∉ addrStr → parse_int addrStr = some a →
      ¬(0 ≤ a ∧ a ≤ 64) →
      dispatch_line ('S' :: (addrStr ++ '$' :: valStr)) bridge delay
        = (addr_range_msg, [], delay))
    ∧ (∀ rest (a : Int), parse_int rest = some a → ¬(0 ≤ a ∧ a ≤ 64) →
      dispatch_line ('R' :: rest) bridge delay = (addr_range_msg, [], delay)) := by
  constructor
  · intro addrStr valStr a hnd hpa hbad
    exact dispatch_line_S_addr_range addrStr valStr bridge delay hnd a hpa hbad
  · intro rest a hpa hbad
    exact dispatch_line_R_addr_range rest bridge delay a hpa hbad

/-- Witness for C6 at the concrete inputs `S70$1` and `R70`. -/
theorem addr_out_of_range_no_bridge_access_witness :
    dispatch_line ('S' :: ("70".data ++ '$' :: "1".data)) (fun _ => 0) 1000
      = (addr_range_msg, [], 1000)
    ∧ dispatch_line ('R' :: "70".data) (fun _ => 0) 1000
      = (addr_range_msg, [], 1000) := by
  have h := addr_out_of_range_no_bridge_access (fun _ => 0) 1000
  exact ⟨h.1 ("70".data) ("1".data) 70 (by decide) (by decide) (by decide),
    h.2 ("70".data) 70 (by decide) (by decide)⟩

/-- C9: digits followed by trailing non-digit characters parse as the digits
alone — the parser stops at the first non-digit, the command is accepted and
executed with the digit-denoted value, and the junk is ignored. -/
theorem trailing_garbage_ignored (a n : Nat) (junkR junkT : List Char)
    (bridge : Nat → Nat) (delay : Nat) (ha : a ≤ 64) (hn1 : 100 ≤ n) (hn2 : n ≤ 5000)
    (hjR : ∀ c, junkR.head? = some c → is_digit c = false)
    (hjT : ∀ c, junkT.head? = some c → is_digit c = false) :
    dispatch_line ('R' :: (natDigits a ++ junkR)) bridge delay
      = (read_ok_msg (a : Int) (sext16 (bridge (a * 4))), [BridgeEvent.read (a * 4)], delay)
    ∧ dispatch_line ('T' :: (natDigits n ++ junkT)) bridge delay
      = (timer_ok_msg (n : Int), [], n) := by
  have ht : ((a : Int) * 4).toNat = a * 4 := by omega
  have htn : ((n : Int)).toNat = n := by omega
  constructor
  · have h := dispatch_line_R_ok (natDigits a ++ junkR) bridge delay (a : Int)
      (parse_int_natDigits a junkR (by omega) hjR) (Int.natCast_nonneg a) (by omega)
    rwa [ht] at h
  · have h := dispatch_line_T_ok (natDigits n ++ junkT) bridge delay (n : Int)
      (parse_int_natDigits n junkT (by omega) hjT) (by omega) (by omega)
    rwa [htn] at h

/-- Witness for C9 at the concrete inputs `R10xyz` and `T3000 ms`. -/
theorem trailing_garbage_ignored_witness :
    dispatch_line ('R' :: (natDigits 10 ++ "xyz".data)) (fun _ => 0) 1000
      = (read_ok_msg (10 : Int) (sext16 0), [BridgeEvent.read (10 * 4)], 1000)
    ∧ dispatch_line ('T' :: (natDigits 3000 ++ " ms".data)) (fun _ => 0) 1000
      = (timer_ok_msg (3000 : Int), [], 3000) := by
  have h := trailing_garbage_ignored 10 3000 ("xyz".data) (" ms".data) (fun _ => 0) 1000
    (by norm_num) (by norm_num) (by norm_num)
    (by intro c hc; simp at hc; rw [← hc]; decide)
    (by intro c hc; simp at hc; rw [← hc]; decide)
  exact h

/-! ### Claim C7: bounded line buffer, excess characters discarded -/

theorem console_step_append (buf : List Char) (bridge : Nat → Nat) (delay : Nat)
    (c : Char) (h1 : ¬(c = '\r' ∨ c = '\n')) (h2 : buf.length < 31) :
    console_step buf bridge delay c = (buf ++ [c], [c], [], delay) := by
  rw [console_step, if_neg h1, if_pos h2]

theorem console_step_drop (buf : List Char) (bridge : Nat → Nat) (delay : Nat)
    (c : Char) (h1 : ¬(c = '\r' ∨ c = '\n')) (h2 : ¬buf.length < 31) :
    console_step buf bridge delay c = (buf, [], [], delay) := by
  rw [console_step, if_neg h1, if_neg h2]

theorem console_run_take (s : List Char) : ∀ (b : List Char) (bridge : Nat → Nat)
    (delay : Nat) (t : List Char),
    (∀ c ∈ s, ¬(c = '\r' ∨ c = '\n')) → b.length ≤ 31 →
    console_run (s ++ t) b bridge delay
      = console_run (s.take (31 - b.length) ++ t) b bridge delay := by
  induction s with
  | nil =>
    intro b bridge delay t _ _
    simp
  | cons c cs ih =>
    intro b bridge delay t hs hb
    have hc : ¬(c = '\r' ∨ c = '\n') := hs c (List.mem_cons_self c cs)
    by_cases hfull : b.length < 31
    · have h31 : 31 - b.length = (31 - (b.length + 1)) + 1 := by omega
      have ihh := ih (b ++ [c]) bridge delay t
        (fun d hd => hs d (List.mem_cons_of_mem c hd)) (by simp; omega)
      have hlen : (b ++ [c]).length = b.length + 1 := by simp
      rw [hlen] at ihh
      rw [h31, List.take_succ_cons]
      simp only [List.cons_append, console_run, console_step_append _ _ _ _ hc hfull,
        applyEvents, List.append_eq]
      rw [ihh]
    · have h0 : 31 - b.length = 0 := by omega
      have ihh := ih b bridge delay t
        (fun d hd => hs d (List.mem_cons_of_mem c hd)) hb
      rw [h0, List.take_zero, List.nil_append] at ihh
      rw [h0, List.take_zero, List.nil_append]
      simp only [List.cons_append, console_run, console_step_drop _ _ _ _ hc hfull,
        applyEvents, List.append_eq]
      rw [ihh]
      simp

/-- C7: the line buffer length never exceeds 31 (strictly below the 32-byte
capacity), and feeding any terminated input line through the console is
indistinguishable — same buffer, same echo and response output, same bridge
events, same timer interval — from feeding only its first 31 visible
characters: every character past the 31st is discarded without echo and
without affecting the parse of the retained prefix. -/
theorem line_buffer_bound_take31 :
    (∀ (buf : List Char) (bridge : Nat → Nat) (delay : Nat) (c : Char),
      buf.length ≤ 31 → (console_step buf bridge delay c).1.length ≤ 31)
    ∧ (∀ (s : List Char) (term : Char) (bridge : Nat → Nat) (delay : Nat),
      (∀ c ∈ s, ¬(c = '\r' ∨ c = '\n')) → term = '\r' ∨ term = '\n' →
      console_run (s ++ [term]) [] bridge delay
        = console_run (s.take 31 ++ [term]) [] bridge delay) := by
  constructor
  · intro buf bridge delay c hb
    unfold console_step
    split_ifs with h1 h2
    · simp
    · simp
      omega
    · simpa using hb
  · intro s term bridge delay hs _hterm
    have h := console_run_take s [] bridge delay [term] hs (by simp)
    simpa using h

/-- Witness for C7 at a short concrete input line. -/
theorem line_buffer_bound_take31_witness :
    (console_step [] (fun _ => 0) 1000 'a').1.length ≤ 31
    ∧ console_run ("ab".data ++ ['\r']) [] (fun _ => 0) 1000
        = console_run (("ab".data).take 31 ++ ['\r']) [] (fun _ => 0) 1000 :=
  ⟨line_buffer_bound_take31.1 [] (fun _ => 0) 1000 'a' (by decide),
   line_buffer_bound_take31.2 ("ab".data) '\r' (fun _ => 0) 1000 (by decide)
     (Or.inl rfl)⟩

/-! ### Claims C3, C4: the circular transmit buffer -/

theorem ringLen_le (r : TxRing) : ringLen r ≤ 511 := by
  unfold ringLen TX_BUFFER_SIZE
  omega

theorem ringContents_nil_iff (r : TxRing) (hwf : r.WF) :
    ringContents r = [] ↔ r.head = r.tail := by
  rcases hwf with ⟨h1, h2⟩
  unfold ringContents
  rw [List.map_eq_nil_iff, List.range_eq_nil]
  unfold ringLen TX_BUFFER_SIZE at *
  omega

theorem ring_index_ne (r : TxRing) (hwf : r.WF) (i : Nat) (hi : i < ringLen r) :
    (r.tail + i) % TX_BUFFER_SIZE ≠ r.head := by
  rcases hwf with ⟨h1, h2⟩
  unfold ringLen TX_BUFFER_SIZE at *
  omega

theorem ring_index_head (r : TxRing) (hwf : r.WF) :
    (r.tail + ringLen r) % TX_BUFFER_SIZE = r.head := by
  rcases hwf with ⟨h1, h2⟩
  unfold ringLen TX_BUFFER_SIZE at *
  omega

theorem full_iff_len (r : TxRing) (hwf : r.WF) :
    (r.head + 1) % TX_BUFFER_SIZE = r.tail ↔ ringLen r = 511 := by
  rcases hwf with ⟨h1, h2⟩
  unfold ringLen TX_BUFFER_SIZE at *
  omega

theorem uart_putchar_spec (c : Nat) (r : TxRing) (hwf : r.WF)
    (hlen : ringLen r < 511) :
    (uart_putchar c r).2 = true ∧ ((uart_putchar c r).1).WF ∧
    ringContents (uart_putchar c r).1 = ringContents r ++ [c] ∧
    ringLen (uart_putchar c r).1 = ringLen r + 1 := by
  have hnf : (r.head + 1) % TX_BUFFER_SIZE ≠ r.tail := by
    intro hfull
    rw [full_iff_len r hwf] at hfull
    omega
  rcases hwf with ⟨h1, h2⟩
  rw [uart_putchar]
  simp only [if_neg hnf]
  refine ⟨trivial, ⟨?_, ?_⟩, ?_, ?_⟩
  · show (r.head + 1) % TX_BUFFER_SIZE < TX_BUFFER_SIZE
    unfold TX_BUFFER_SIZE
    omega
  · exact h2
  · have hlen1 : ringLen
        { buf := (fun i => if i = r.head then c else r.buf i),
          head := (r.head + 1) % TX_BUFFER_SIZE, tail := r.tail }
        = ringLen r + 1 := by
      unfold ringLen TX_BUFFER_SIZE at *
      dsimp only
      omega
    unfold ringContents
    rw [hlen1, List.range_succ, List.map_append]
    congr 1
    · apply List.map_congr_left
      intro i hi
      rw [List.mem_range] at hi
      have hne := ring_index_ne r ⟨h1, h2⟩ i hi
      simp only [if_neg hne]
    · have hh := ring_index_head r ⟨h1, h2⟩
      simp [hh]
  · unfold ringLen TX_BUFFER_SIZE at *
    dsimp only
    omega

theorem uart_isr_drain_empty (r : TxRing) (h : r.tail = r.head) :
    uart_isr_drain r = none := by
  rw [uart_isr_drain, if_neg (by simpa using h)]

theorem uart_isr_drain_spec (r : TxRing) (hwf : r.WF) (hne : r.tail ≠ r.head) :
    uart_isr_drain r = some (r.buf r.tail,
      { r with tail := (r.tail + 1) % TX_BUFFER_SIZE }) ∧
    ({ r with tail := (r.tail + 1) % TX_BUFFER_SIZE } : TxRing).WF ∧
    ringContents r
      = r.buf r.tail
        :: ringContents { r with tail := (r.tail + 1) % TX_BUFFER_SIZE } := by
  rcases hwf with ⟨h1, h2⟩
  refine ⟨by rw [uart_isr_drain, if_pos hne],
    ⟨h1, by show (r.tail + 1) % TX_BUFFER_SIZE < TX_BUFFER_SIZE; unfold TX_BUFFER_SIZE; omega⟩,
    ?_⟩
  have hlen : ringLen r
      = ringLen { r with tail := (r.tail + 1) % TX_BUFFER_SIZE } + 1 := by
    unfold ringLen TX_BUFFER_SIZE at *
    dsimp only
    omega
  unfold ringContents
  rw [hlen, List.range_succ_eq_map, List.map_cons, List.map_map]
  congr 1
  · have ht : r.tail % TX_BUFFER_SIZE = r.tail := Nat.mod_eq_of_lt h2
    simp [ht]
  · apply List.map_congr_left
    intro i _
    show r.buf ((r.tail + (i + 1)) % TX_BUFFER_SIZE)
      = r.buf (((r.tail + 1) % TX_BUFFER_SIZE + i) % TX_BUFFER_SIZE)
    congr 1
    unfold TX_BUFFER_SIZE
    omega

theorem enqueueList_spec (cs : List Nat) : ∀ (r : TxRing), r.WF →
    ringLen r + cs.length ≤ 511 →
    ((enqueueList cs r).1).WF ∧
    (∀ b ∈ (enqueueList cs r).2, b = true) ∧
    ringContents (enqueueList cs r).1 = ringContents r ++ cs ∧
    ringLen (enqueueList cs r).1 = ringLen r + cs.length := by
  induction cs with
  | nil =>
    intro r hwf _
    simp [enqueueList, hwf]
  | cons c cs ih =>
    intro r hwf hcap
    simp only [List.length_cons] at hcap
    obtain ⟨hok, hwf1, hcont1, hlen1⟩ := uart_putchar_spec c r hwf (by omega)
    obtain ⟨hwf2, hall, hcont2, hlen2⟩ := ih (uart_putchar c r).1 hwf1 (by omega)
    simp only [enqueueList]
    refine ⟨hwf2, ?_, ?_, ?_⟩
    · intro b hb
      rcases List.mem_cons.mp hb with hb | hb
      · rw [hb, hok]
      · exact hall b hb
    · rw [hcont2, hcont1, List.append_assoc]
      rfl
    · rw [hlen2, hlen1, List.length_cons]
      omega

theorem drainN_spec (k : Nat) : ∀ (r : TxRing), r.WF →
    (drainN k r).1 = (ringContents r).take k ∧
    ((drainN k r).2).WF ∧
    ringContents (drainN k r).2 = (ringContents r).drop k := by
  induction k with
  | zero =>
    intro r hwf
    simp [drainN, hwf]
  | succ k ih =>
    intro r hwf
    by_cases hne : r.tail = r.head
    · have hnil : ringContents r = [] := (ringContents_nil_iff r hwf).mpr hne.symm
      rw [drainN, uart_isr_drain_empty r hne]
      simp [hnil, hwf]
    · obtain ⟨hdr, hwf1, hcont⟩ := uart_isr_drain_spec r hwf hne
      rw [drainN, hdr]
      obtain ⟨h1, h2, h3⟩ := ih _ hwf1
      refine ⟨?_, ?_, ?_⟩
      · show r.buf r.tail
            :: (drainN k { r with tail := (r.tail + 1) % TX_BUFFER_SIZE }).1
          = List.take (k + 1) (ringContents r)
        rw [hcont, List.take_succ_cons, h1]
      · show ((drainN k { r with tail := (r.tail + 1) % TX_BUFFER_SIZE }).2).WF
        exact h2
      · show ringContents (drainN k { r with tail := (r.tail + 1) % TX_BUFFER_SIZE }).2
          = List.drop (k + 1) (ringContents r)
        rw [hcont, List.drop_succ_cons, h3]

/-- C3: bytes enqueued through `uart_putchar` into an empty ring with enough
free capacity are all accepted, and the interrupt-side drain returns exactly
those bytes in FIFO order — no duplication, no loss — with the ring reporting
empty (`head == tail`) precisely when all enqueued bytes have been drained. -/
theorem tx_ring_fifo (r : TxRing) (cs : List Nat) (k : Nat) (hwf : r.WF)
    (hempty : r.head = r.tail) (hcap : cs.length ≤ 511) :
    (∀ b ∈ (enqueueList cs r).2, b = true)
    ∧ ringContents (enqueueList cs r).1 = cs
    ∧ (drainN k (enqueueList cs r).1).1 = cs.take k
    ∧ (((drainN k (enqueueList cs r).1).2).head = ((drainN k (enqueueList cs r).1).2).tail
        ↔ cs.length ≤ k) := by
  have hlen0 : ringLen r = 0 := by
    rcases hwf with ⟨h1, h2⟩
    unfold ringLen TX_BUFFER_SIZE at *
    omega
  have hnil : ringContents r = [] := by
    unfold ringContents
    rw [hlen0]
    simp
  obtain ⟨hwf1, hall, hcont1, hlen1⟩ := enqueueList_spec cs r hwf (by omega)
  rw [hnil, List.nil_append] at hcont1
  obtain ⟨hout, hwf2, hcont2⟩ := drainN_spec k (enqueueList cs r).1 hwf1
  refine ⟨hall, hcont1, by rw [hout, hcont1], ?_⟩
  constructor
  · intro hht
    have hn : ringContents (drainN k (enqueueList cs r).1).2 = [] :=
      (ringContents_nil_iff _ hwf2).mpr hht
    rw [hcont2, hcont1] at hn
    rw [List.drop_eq_nil_iff] at hn
    exact hn
  · intro hk
    apply (ringContents_nil_iff _ hwf2).mp
    rw [hcont2, hcont1]
    exact List.drop_eq_nil_of_le hk

/-- C4: when the transmit ring is full (`(head + 1) mod 512 == tail`),
`uart_putchar` returns 0 and leaves head, tail and the buffer contents
completely unchanged; fullness coincides with exactly 511 pending bytes, and
any ring holding fewer than 511 bytes accepts the next byte — the usable
capacity is exactly `N - 1 = 511`. -/
theorem tx_ring_full_reject (r : TxRing) (c : Nat) (hwf : r.WF) :
    ((r.head + 1) % TX_BUFFER_SIZE = r.tail →
      uart_putchar c r = (r, false) ∧ ringLen r = 511)
    ∧ (ringLen r < 511 → (uart_putchar c r).2 = true) := by
  constructor
  · intro hfull
    exact ⟨by rw [uart_putchar, if_pos hfull], (full_iff_len r hwf).mp hfull⟩
  · intro hlen
    exact (uart_putchar_spec c r hwf hlen).1

/-- A concrete full transmit ring used by the witnesses. -/
def fullRing : TxRing := { buf := (fun _ => 0), head := 511, tail := 0 }

/-- Witness for C4: enqueueing on a concrete full ring is rejected with the
state unchanged, and that ring holds exactly 511 pending bytes. -/
theorem tx_ring_full_reject_witness :
    uart_putchar 65 fullRing = (fullRing, false) ∧ ringLen fullRing = 511 :=
  (tx_ring_full_reject fullRing 65 ⟨by decide, by decide⟩).1 (by decide)

/-- Witness for C3: the bytes 1, 2, 3 enqueued into a concrete empty ring are
all accepted and drain back as exactly 1, 2, 3, leaving the ring empty. -/
theorem tx_ring_fifo_witness :
    (∀ b ∈ (enqueueList [1, 2, 3] { buf := (fun _ => 0), head := 0, tail := 0 }).2,
        b = true)
    ∧ ringContents (enqueueList [1, 2, 3]
        { buf := (fun _ => 0), head := 0, tail := 0 }).1 = [1, 2, 3]
    ∧ (drainN 3 (enqueueList [1, 2, 3]
        { buf := (fun _ => 0), head := 0, tail := 0 }).1).1 = List.take 3 [1, 2, 3]
    ∧ ((drainN 3 (enqueueList [1, 2, 3]
          { buf := (fun _ => 0), head := 0, tail := 0 }).1).2.head
        = (drainN 3 (enqueueList [1, 2, 3]
          { buf := (fun _ => 0), head := 0, tail := 0 }).1).2.tail
        ↔ ([1, 2, 3] : List Nat).length ≤ 3) :=
  tx_ring_fifo { buf := (fun _ => 0), head := 0, tail := 0 } [1, 2, 3] 3
    ⟨by decide, by decide⟩ rfl (by decide)

/-! ### Claim C8: the timed enqueue variant -/

theorem sub32_eq (t start : Nat) (h1 : start ≤ t) (h2 : t - start < 4294967296)
    (_h3 : start < 4294967296) : sub32 t start = t - start := by
  unfold sub32
  omega

theorem uart_putchar_false_iff (c : Nat) (r : TxRing) :
    (uart_putchar c r).2 = false ↔ (r.head + 1) % TX_BUFFER_SIZE = r.tail := by
  rw [uart_putchar]
  split <;> simp_all

/-- C8: under a monotonically nondecreasing observed tick counter that starts
at the recorded start value and does not wrap, `uart_putchar_blocking`
returns failure exactly when some poll finds the ring still full after the
configured number of ticks has elapsed, every earlier poll found the ring
full, and every earlier poll was within the timeout. -/
theorem putchar_blocking_timeout_iff (c timeout start : Nat)
    (hstart : start < 4294967296) :
    ∀ obs : List (TxRing × Nat),
    (∀ p ∈ obs, start ≤ p.2 ∧ p.2 - start < 4294967296) →
    List.Chain' (fun p q : TxRing × Nat => p.2 ≤ q.2) obs →
    ((∃ rk, uart_putchar_blocking c timeout start obs = some (false, rk))
      ↔ ∃ k, ∃ hk : k < obs.length,
          (∀ p ∈ obs.take (k + 1), (p.1.head + 1) % TX_BUFFER_SIZE = p.1.tail)
          ∧ timeout ≤ (obs.get ⟨k, hk⟩).2 - start
          ∧ ∀ p ∈ obs.take k, p.2 - start < timeout) := by
  intro obs
  induction obs with
  | nil =>
    intro _ _
    constructor
    · rintro ⟨rk, hr⟩
      rw [uart_putchar_blocking] at hr
      exact absurd hr (by simp)
    · rintro ⟨k, hk, _⟩
      exact absurd hk (by simp)
  | cons pr rest ih =>
    intro hticks hmono
    obtain ⟨r, t⟩ := pr
    have hts := hticks (r, t) (List.mem_cons_self _ _)
    have hsub : sub32 t start = t - start := sub32_eq t start hts.1 hts.2 hstart
    rw [uart_putchar_blocking]
    by_cases hfull : (r.head + 1) % TX_BUFFER_SIZE = r.tail
    · have hsnd : (uart_putchar c r).2 = false := (uart_putchar_false_iff c r).mpr hfull
      rw [if_neg (by simp [hsnd])]
      by_cases hto : timeout ≤ sub32 t start
      · rw [if_pos hto]
        constructor
        · intro _
          refine ⟨0, by simp, ?_, ?_, ?_⟩
          · intro p hp
            simp only [List.take_succ_cons, List.take_zero] at hp
            rcases List.mem_cons.mp hp with hp | hp
            · rw [hp]
              exact hfull
            · exact absurd hp (List.not_mem_nil p)
          · show timeout ≤ t - start
            omega
          · intro p hp
            simp at hp
        · intro _
          exact ⟨r, rfl⟩
      · rw [if_neg hto]
        rw [ih (fun p hp => hticks p (List.mem_cons_of_mem _ hp)) hmono.tail]
        constructor
        · rintro ⟨k, hk, hfullall, hget, hlt⟩
          refine ⟨k + 1, by simpa using Nat.succ_lt_succ hk, ?_, ?_, ?_⟩
          · intro p hp
            rw [List.take_succ_cons] at hp
            rcases List.mem_cons.mp hp with hp | hp
            · rw [hp]
              exact hfull
            · exact hfullall p hp
          · exact hget
          · intro p hp
            rw [List.take_succ_cons] at hp
            rcases List.mem_cons.mp hp with hp | hp
            · rw [hp]
              show t - start < timeout
              omega
            · exact hlt p hp
        · rintro ⟨k, hk, hfullall, hget, hlt⟩
          cases k with
          | zero =>
            exfalso
            have hget0 : timeout ≤ t - start := hget
            omega
          | succ j =>
            refine ⟨j, by simpa using Nat.lt_of_succ_lt_succ (by simpa using hk), ?_, ?_, ?_⟩
            · intro p hp
              apply hfullall
              rw [List.take_succ_cons]
              exact List.mem_cons_of_mem _ hp
            · exact hget
            · intro p hp
              apply hlt
              rw [List.take_succ_cons]
              exact List.mem_cons_of_mem _ hp
    · have hsnd : (uart_putchar c r).2 = true := by
        cases h2 : (uart_putchar c r).2
        · exact absurd ((uart_putchar_false_iff c r).mp h2) hfull
        · rfl
      rw [if_pos hsnd]
      constructor
      · rintro ⟨rk, hr⟩
        simp at hr
      · rintro ⟨k, hk, hfullall, _, _⟩
        exfalso
        apply hfull
        have hp0 : (r, t) ∈ ((r, t) :: rest).take (k + 1) := by
          rw [List.take_succ_cons]
          exact List.mem_cons_self _ _
        exact hfullall (r, t) hp0

/-- Witness for C8: with start tick 5, timeout 5 and a ring that stays full,
the observed ticks 5 then 10 make the call fail exactly at the second poll. -/
theorem putchar_blocking_timeout_iff_witness :
    ∃ rk, uart_putchar_blocking 65 5 5 [(fullRing, 5), (fullRing, 10)]
      = some (false, rk) :=
  (putchar_blocking_timeout_iff 65 5 5 (by norm_num) [(fullRing, 5), (fullRing, 10)]
      (by decide) (by simp [List.chain'_cons])).mpr
    ⟨1, by decide, by decide, by decide, by decide⟩

/-! ### Claim C10: the JTAG debug channel feeds the same receive latch -/

/-- C10: every JTAG data word with the valid bit (bit 15) set overwrites the
single receive latch shared with the RS232 receive path — regardless of any
unconsumed character — with its low byte, exactly as an RS232 receive with
RRDY set stores the same byte; the next `process_console_input` call then
consumes it as command-console input, clearing the flag and running the
line-assembler step on that character. -/
theorem jtag_rx_same_latch (data : Nat) (l : RxLatch) (buf : List Char)
    (bridge : Nat → Nat) (delay : Nat) (hv : data &&& 32768 ≠ 0) :
    jtag_uart_isr data l = { flag := true, chr := Char.ofNat (data % 256) }
    ∧ jtag_uart_isr data l = uart_isr_rx 128 (data % 256) l
    ∧ process_console_input (jtag_uart_isr data l) buf bridge delay
        = ({ flag := false, chr := Char.ofNat (data % 256) },
            console_step buf bridge delay (Char.ofNat (data % 256))) := by
  have h1 : jtag_uart_isr data l = { flag := true, chr := Char.ofNat (data % 256) } := by
    rw [jtag_uart_isr, if_pos hv]
  have hmod : data % 256 % 256 = data % 256 := by omega
  have h2 : uart_isr_rx 128 (data % 256) l
      = { flag := true, chr := Char.ofNat (data % 256) } := by
    rw [uart_isr_rx, if_pos (by decide), hmod]
  refine ⟨h1, by rw [h1, h2], ?_⟩
  rw [h1]
  rfl

/-- Witness for C10: the JTAG word 0x8041 (valid bit plus byte 0x41, `A`)
overwrites a latch still holding an unconsumed `Q` and is then consumed as
console input. -/
theorem jtag_rx_same_latch_witness :
    jtag_uart_isr 32833 { flag := true, chr := 'Q' }
      = { flag := true, chr := Char.ofNat (32833 % 256) }
    ∧ jtag_uart_isr 32833 { flag := true, chr := 'Q' }
      = uart_isr_rx 128 (32833 % 256) { flag := true, chr := 'Q' }
    ∧ process_console_input (jtag_uart_isr 32833 { flag := true, chr := 'Q' })
        [] (fun _ => 0) 1000
      = ({ flag := false, chr := Char.ofNat (32833 % 256) },
          console_step [] (fun _ => 0) 1000 (Char.ofNat (32833 % 256))) :=
  jtag_rx_same_latch 32833 { flag := true, chr := 'Q' } [] (fun _ => 0) 1000 (by decide)

end FirConsole
